import Mathlib

/-!
Verification of the CocaMd2JSON vocabulary-enrichment pipeline.

The definitions below are a shallow embedding of the TypeScript source
(`src/unnamed/part_000`, second document, which is the variant with
pause/cancel support, and `src/App.tsx`, second document, the variant with a
stop button).  JavaScript runtime values that flow through the pipeline are
modelled by the inductive type `JsValue`; machine strings are Lean `String`s
(worked on as `List Char`), and JS numbers are modelled as integers plus a
separate NaN value, with non-integer JSON literals kept as exact decimals
(`vDec m e` denotes m * 10^e).  This is faithful for every value this
program manipulates (ranks are decimal digit strings, and no floating-point
arithmetic is performed anywhere in the pipeline).
-/

set_option linter.unusedVariables false

/-- Model of a JavaScript value as produced by `JSON.parse` / manipulated by
the pipeline.  `vUndefined` is JS `undefined`, `vDec m e` a non-integer
decimal number m·10^e, `vNaN` the NaN number. -/
inductive JsValue where
  | vUndefined : JsValue
  | vNull : JsValue
  | vBool : Bool → JsValue
  | vNum : Int → JsValue
  | vDec : Int → Int → JsValue
  | vNaN : JsValue
  | vStr : String → JsValue
  | vArr : List JsValue → JsValue
  | vObj : List (String × JsValue) → JsValue
deriving Repr

namespace JsValue

/-- `v === null || v === undefined`, the guard of `getDeep`'s loop. -/
def isNullOrUndefined : JsValue → Bool
  | vNull => true
  | vUndefined => true
  | _ => false

/-- `v === undefined`, the final check of `getDeep`. -/
def isUndefined : JsValue → Bool
  | vUndefined => true
  | _ => false

/-- JS truthiness: `undefined`, `null`, `false`, `±0`, `NaN` and `""` are
falsy, everything else (including `[]` and `{}`) is truthy. -/
def truthy : JsValue → Bool
  | vUndefined => false
  | vNull => false
  | vBool b => b
  | vNum n => n ≠ 0
  | vDec _ _ => true
  | vNaN => false
  | vStr s => s ≠ ""
  | vArr _ => true
  | vObj _ => true

end JsValue

open JsValue

/-- A canonical JS array-index string: nonempty, all ASCII digits, no
leading zero (except `"0"` itself).  `a["07"]` does *not* read element 7. -/
def canonicalIndex (k : String) : Option Nat :=
  let cs := k.data
  if cs ≠ [] ∧ cs.all Char.isDigit ∧ (cs.head? = some '0' → cs = ['0']) then
    some (cs.foldl (fun n c => n * 10 + (c.toNat - '0'.toNat)) 0)
  else none

/-- Model of the JS member access `current[key]` for the JSON-shaped values
this program traverses: object field lookup (last binding wins, as in
`JSON.parse`), array indexing and `length`, string indexing and `length`.
Absent members are `undefined`.  (Function-valued prototype members are not
modelled; `null`/`undefined` never reach this function inside `getDeep`.) -/
def jsMember : JsValue → String → JsValue
  | vObj fs, k =>
      match fs.reverse.find? (fun p => p.1 = k) with
      | some p => p.2
      | none => vUndefined
  | vArr xs, k =>
      if k = "length" then vNum xs.length
      else match canonicalIndex k with
        | some i => xs.getD i vUndefined
        | none => vUndefined
  | vStr s, k =>
      if k = "length" then vNum s.length
      else match canonicalIndex k with
        | some i =>
            match s.data.get? i with
            | some c => vStr (String.mk [c])
            | none => vUndefined
        | none => vUndefined
  | _, _ => vUndefined

/-- Fuel-driven scanner for `normalizeBrackets` (the fuel is only there to
make the recursion structural; `fuel = length of the input` always
suffices, because every step consumes at least one character). -/
def normalizeBracketsF : Nat → List Char → List Char
  | 0, _ => []
  | _, [] => []
  | fuel + 1, '[' :: rest =>
      let ds := rest.takeWhile Char.isDigit
      if ds ≠ [] ∧ (rest.drop ds.length).head? = some ']' then
        '.' :: ds ++ normalizeBracketsF fuel (rest.drop (ds.length + 1))
      else
        '[' :: normalizeBracketsF fuel rest
  | fuel + 1, c :: rest => c :: normalizeBracketsF fuel rest

/-- `path.replace(/\[(\d+)\]/g, ".$1")`: rewrite every bracketed digit
group `[i]` to `.i`, leftmost-first, leaving other brackets alone. -/
def normalizeBrackets (l : List Char) : List Char :=
  normalizeBracketsF l.length l

/-- `String.prototype.split` with a single-character separator: always at
least one segment, empty segments kept. -/
def splitOnChar (sep : Char) : List Char → List (List Char)
  | [] => [[]]
  | c :: cs =>
      let r := splitOnChar sep cs
      if c = sep then [] :: r
      else
        match r with
        | s :: ss => (c :: s) :: ss
        | [] => [[c]]

/-- The key list traversed by `getDeep`:
`path.replace(/\[(\d+)\]/g, ".$1").split(".")`. -/
def pathSegments (path : String) : List String :=
  (splitOnChar '.' (normalizeBrackets path.data)).map String.mk

/-- `getDeep(obj, path, defaultValue = "")` from the source: return the
default if `obj` is falsy; otherwise walk the normalized path one key at a
time, returning the default as soon as the current value is `null` or
`undefined`; finally return the default iff the resolved value is
`undefined` (a resolved `null` is returned as-is).  The JS `for` loop with
its early `return` is modelled by a fold over an `Option` state (`none` =
already returned the default). -/
def getDeep (obj : JsValue) (path : String) (defaultValue : JsValue := vStr "") : JsValue :=
  if !truthy obj then defaultValue
  else
    let keys := pathSegments path
    let current := keys.foldl
      (fun cur k =>
        match cur with
        | none => none
        | some c => if c.isNullOrUndefined then none else some (jsMember c k))
      (some obj)
    match current with
    | none => defaultValue
    | some c => if c.isUndefined then defaultValue else c

/-- Specification-side resolver, written from the spec's words
("traversal walks one segment at a time; if the value becomes absent at any
segment, the path is absent"): `none` means some segment was looked up on
`null`/`undefined`, i.e. the path is absent. -/
def specResolve : JsValue → List String → Option JsValue
  | v, [] => some v
  | v, k :: ks =>
      if v.isNullOrUndefined then none
      else specResolve (jsMember v k) ks

/-! ## The entry parser (`parseMarkdownFile`) -/

/-- JS `\s` / `trim` whitespace, restricted to the ASCII whitespace
characters (the inputs this parser receives are ASCII; the Unicode space
classes of JS `\s` are not modelled). -/
def isSpaceJS (c : Char) : Bool :=
  c = ' ' || c = '\t' || c = '\n' || c = '\r' || c = '\x0b' || c = '\x0c'

/-- `String.prototype.trim` on a character list. -/
def trimJS (l : List Char) : List Char :=
  ((l.dropWhile isSpaceJS).reverse.dropWhile isSpaceJS).reverse

/-- `hay.startsWith(needle)` (used for `defLine.startsWith("[")`). -/
def listStartsWith : List Char → List Char → Bool
  | _, [] => true
  | [], _ :: _ => false
  | a :: as, b :: bs => a = b && listStartsWith as bs

/-- `hay.includes(needle)`: substring containment. -/
def listContains : List Char → List Char → Bool
  | hay, needle =>
    if listStartsWith hay needle then true
    else match hay with
      | [] => false
      | _ :: rest => listContains rest needle

/-- Length of the match of `/\n\s*\n/` starting exactly at the head of the
list, if any: a newline, then (greedily) whitespace up to and including the
last newline of the whitespace run. -/
def sepLen : List Char → Option Nat
  | '\n' :: rest =>
      let ws := rest.takeWhile isSpaceJS
      match (ws.reverse.findIdx? (· = '\n')) with
      | some j => some (ws.length - j + 1)
      | none => none
  | _ => none

/-- Fuel-driven splitter for `content.split(/\n\s*\n/)`: scan for the
leftmost separator match, cut, resume after it. -/
def splitBlankSepF : Nat → List Char → List Char → List (List Char)
  | 0, acc, _ => [acc.reverse]
  | _, acc, [] => [acc.reverse]
  | fuel + 1, acc, c :: cs =>
      match sepLen (c :: cs) with
      | some k => acc.reverse :: splitBlankSepF fuel [] ((c :: cs).drop k)
      | none => splitBlankSepF fuel (c :: acc) cs

/-- `content.split(/\n\s*\n/)`. -/
def splitBlankSep (l : List Char) : List (List Char) :=
  splitBlankSepF l.length [] l

/-- Match of `/^(\d+)\s+(.+)$/` against one line (callers only pass lines,
which contain no newline): the two capture groups, or `none`.  The
`rest = []` corner implements the regex engine's backtracking, where `\s+`
gives one character back to `(.+)` when the line ends in whitespace. -/
def titleMatch (l : List Char) : Option (List Char × List Char) :=
  let ds := l.takeWhile Char.isDigit
  let r1 := l.drop ds.length
  let ws := r1.takeWhile isSpaceJS
  let rest := r1.drop ws.length
  if ds.isEmpty || ws.isEmpty then none
  else if rest.isEmpty then
    if 2 ≤ ws.length then some (ds, ws.drop (ws.length - 1)) else none
  else some (ds, rest)

/-- Match of `/([a-z]+\.)\s*(\[[^\]]+\])/` anchored at the head of the
list: returns both capture groups and the total match length. -/
def posMatchAt (l : List Char) : Option (List Char × List Char × Nat) :=
  let letters := l.takeWhile (fun c => decide ('a' ≤ c) && decide (c ≤ 'z'))
  if letters.isEmpty then none
  else
    match l.drop letters.length with
    | '.' :: r2 =>
        let ws := r2.takeWhile isSpaceJS
        match r2.drop ws.length with
        | '[' :: r4 =>
            let inner := r4.takeWhile (· ≠ ']')
            if inner.isEmpty then none
            else match r4.drop inner.length with
              | ']' :: _ =>
                  some (letters ++ ['.'], '[' :: inner ++ [']'],
                        letters.length + 1 + ws.length + 1 + inner.length + 1)
              | _ => none
        | _ => none
    | _ => none

/-- Fuel-driven scan of `posRegex.exec` in a `while` loop with the `g`
flag: collect successive leftmost non-overlapping matches. -/
def posMatchesF : Nat → List Char → List (List Char × List Char)
  | 0, _ => []
  | _, [] => []
  | fuel + 1, c :: cs =>
      match posMatchAt (c :: cs) with
      | some (g1, g2, len) => (g1, g2) :: posMatchesF fuel ((c :: cs).drop len)
      | none => posMatchesF fuel cs

/-- All matches of `/([a-z]+\.)\s*(\[[^\]]+\])/g` over a line. -/
def posMatches (l : List Char) : List (List Char × List Char) :=
  posMatchesF l.length l

/-- `s.replace(".", "")`: remove the first occurrence of a character
(`String.prototype.replace` with a string pattern replaces only the first
occurrence). -/
def removeFirst (c : Char) : List Char → List Char
  | [] => []
  | x :: xs => if x = c then xs else x :: removeFirst c xs

/-- One candidate definition of an entry: `{ pos, trans }`. -/
structure WordDef where
  pos : String
  trans : String
deriving Repr, DecidableEq

/-- One parsed entry: `{ rank, word, definitions, rawTrans }`. -/
structure WordEntry where
  rank : String
  word : String
  definitions : List WordDef
  rawTrans : String
deriving Repr, DecidableEq

/-- The part-of-speech marker substrings looked for when picking the
definition line. -/
def posMarkers : List (List Char) :=
  ["n.", "adj.", "v.", "adv.", "prep.", "conj."].map String.data

/-- The predicate of `lines.find(...)`: the line contains `["` and at least
one of the six part-of-speech abbreviation markers. -/
def isDefLine (l : List Char) : Bool :=
  listContains l ['[', '"'] && posMarkers.any (listContains l)

/-- Parse one blank-line-separated block into an entry, or skip it
(`none`): fewer than two nonempty lines, or a first line that does not
match `/^(\d+)\s+(.+)$/`, silently discard the block. -/
def parseBlock (block : List Char) : Option WordEntry :=
  let lines := ((splitOnChar '\n' block).map trimJS).filter (fun l => !l.isEmpty)
  if lines.length < 2 then none
  else
    match titleMatch lines.headI with
    | none => none
    | some (rank, word) =>
        let defLine? := lines.find? isDefLine
        let definitions :=
          match defLine? with
          | none => []
          | some dl =>
              let defs := (posMatches dl).map
                (fun m => WordDef.mk (String.mk (removeFirst '.' m.1)) (String.mk m.2))
              if defs.isEmpty && listStartsWith dl ['['] then
                [WordDef.mk "misc" (String.mk dl)]
              else defs
        let rawTrans :=
          match defLine? with
          | none => ""
          | some dl => String.mk dl
        some (WordEntry.mk (String.mk rank) (String.mk word) definitions rawTrans)

/-- `parseMarkdownFile(content)`: split on blank lines, parse each block,
silently dropping malformed ones. -/
def parseMarkdownFile (content : String) : List WordEntry :=
  (splitBlankSep content.data).filterMap parseBlock

/-! ## JSON.parse, String() conversion, and `formatTranslation` -/

/-- JSON insignificant whitespace. -/
def jsonWsDrop (l : List Char) : List Char :=
  l.dropWhile (fun c => c = ' ' || c = '\t' || c = '\n' || c = '\r')

/-- Hex digit value. -/
def hexVal (c : Char) : Option Nat :=
  if '0' ≤ c ∧ c ≤ '9' then some (c.toNat - '0'.toNat)
  else if 'a' ≤ c ∧ c ≤ 'f' then some (c.toNat - 'a'.toNat + 10)
  else if 'A' ≤ c ∧ c ≤ 'F' then some (c.toNat - 'A'.toNat + 10)
  else none

/-- Single-character JSON string escapes. -/
def escChar : Char → Option Char
  | '"' => some '"'
  | '\\' => some '\\'
  | '/' => some '/'
  | 'b' => some '\x08'
  | 'f' => some '\x0c'
  | 'n' => some '\n'
  | 'r' => some '\r'
  | 't' => some '\t'
  | _ => none

/-- Body of a JSON string after the opening quote: content and remainder
after the closing quote.  (`\uXXXX` is mapped through `Char.ofNat`;
surrogate pairs are not modelled — no input of this program uses them.) -/
def parseJsonStringBody : List Char → Option (List Char × List Char)
  | [] => none
  | '"' :: rest => some ([], rest)
  | '\\' :: 'u' :: h1 :: h2 :: h3 :: h4 :: r =>
      match hexVal h1, hexVal h2, hexVal h3, hexVal h4 with
      | some a, some b, some c, some d =>
          (parseJsonStringBody r).map
            (fun p => (Char.ofNat (((a * 16 + b) * 16 + c) * 16 + d) :: p.1, p.2))
      | _, _, _, _ => none
  | '\\' :: e :: r =>
      match escChar e with
      | some c => (parseJsonStringBody r).map (fun p => (c :: p.1, p.2))
      | none => none
  | c :: rest =>
      if c.toNat < 0x20 then none
      else (parseJsonStringBody rest).map (fun p => (c :: p.1, p.2))

/-- Put an exact decimal m·10^e into normal form: an integer becomes
`vNum`, anything else a `vDec` with a mantissa not divisible by 10.  The
fuel only makes the recursion structural; `|e|+1` always suffices. -/
def normDecF : Nat → Int → Int → JsValue
  | 0, m, e => vDec m e
  | fuel + 1, m, e =>
      if m = 0 then vNum 0
      else if 0 ≤ e then vNum (m * 10 ^ e.toNat)
      else if m % 10 = 0 then normDecF fuel (m / 10) (e + 1)
      else vDec m e

/-- Normal form of m·10^e. -/
def normDec (m e : Int) : JsValue :=
  normDecF (e.natAbs + 1) m e

/-- Digits of a nonnegative number, as characters (fuel-structural). -/
def natDigitsF : Nat → Nat → List Char
  | 0, _ => []
  | fuel + 1, n =>
      if n < 10 then [Char.ofNat ('0'.toNat + n)]
      else natDigitsF fuel (n / 10) ++ [Char.ofNat ('0'.toNat + n % 10)]

/-- Decimal digit string of a natural number. -/
def natDigits (n : Nat) : List Char := natDigitsF (n + 1) n

/-- A JSON number literal: `-? (0 | [1-9][0-9]*) frac? exp?`, evaluated
exactly as a decimal.  Returns the value and the remainder. -/
def parseJsonNumber (l : List Char) : Option (JsValue × List Char) :=
  let signed := match l with | '-' :: r => (true, r) | _ => (false, l)
  let neg := signed.1
  let l1 := signed.2
  match l1 with
  | [] => none
  | c :: _ =>
      if !c.isDigit then none
      else
        let intds := if c = '0' then ['0'] else l1.takeWhile Char.isDigit
        let l2 := l1.drop intds.length
        let fracds :=
          match l2 with
          | '.' :: r => r.takeWhile Char.isDigit
          | _ => []
        if (match l2 with | '.' :: _ => fracds.isEmpty | _ => false) then none
        else
          let l3 := if fracds.isEmpty then l2 else l2.drop (fracds.length + 1)
          let expPart : Option (Int × List Char) :=
            match l3 with
            | 'e' :: r | 'E' :: r =>
                let es := match r with | '+' :: r' => (1, r') | '-' :: r' => (-1, r') | _ => ((1 : Int), r)
                let eds := es.2.takeWhile Char.isDigit
                if eds.isEmpty then none
                else some (es.1 * (eds.foldl (fun n d => n * 10 + ((d.toNat - '0'.toNat) : Int)) 0),
                           es.2.drop eds.length)
            | _ => some (0, l3)
          match expPart with
          | none => none
          | some (ex, rest) =>
              let mAbs : Int := (intds ++ fracds).foldl (fun n d => n * 10 + ((d.toNat - '0'.toNat) : Int)) 0
              let m := if neg then -mAbs else mAbs
              some (normDec m (ex - fracds.length), rest)

mutual

/-- A JSON value, starting at the current character (leading whitespace
already skipped).  The fuel only makes the mutual recursion structural;
the wrapper `jsonParse` supplies more than enough. -/
def parseJsonValue : Nat → List Char → Option (JsValue × List Char)
  | 0, _ => none
  | fuel + 1, l =>
      match l with
      | 'n' :: 'u' :: 'l' :: 'l' :: r => some (vNull, r)
      | 't' :: 'r' :: 'u' :: 'e' :: r => some (vBool true, r)
      | 'f' :: 'a' :: 'l' :: 's' :: 'e' :: r => some (vBool false, r)
      | '"' :: r => (parseJsonStringBody r).map (fun p => (vStr (String.mk p.1), p.2))
      | '[' :: r =>
          (match jsonWsDrop r with
           | ']' :: r2 => some (vArr [], r2)
           | l2 => parseJsonElems fuel l2 [])
      | '{' :: r =>
          (match jsonWsDrop r with
           | '}' :: r2 => some (vObj [], r2)
           | l2 => parseJsonMembers fuel l2 [])
      | _ => parseJsonNumber l

/-- Comma-separated array elements, then `]`. -/
def parseJsonElems : Nat → List Char → List JsValue → Option (JsValue × List Char)
  | 0, _, _ => none
  | fuel + 1, l, acc =>
      match parseJsonValue fuel (jsonWsDrop l) with
      | none => none
      | some (v, r) =>
          match jsonWsDrop r with
          | ',' :: r2 => parseJsonElems fuel r2 (v :: acc)
          | ']' :: r2 => some (vArr (v :: acc).reverse, r2)
          | _ => none

/-- Comma-separated `"key": value` members, then `}`.  Duplicate keys are
kept in order; `jsMember` makes the last binding win, as JS does. -/
def parseJsonMembers : Nat → List Char → List (String × JsValue) →
    Option (JsValue × List Char)
  | 0, _, _ => none
  | fuel + 1, l, acc =>
      match jsonWsDrop l with
      | '"' :: r =>
          match parseJsonStringBody r with
          | none => none
          | some (key, r2) =>
              match jsonWsDrop r2 with
              | ':' :: r3 =>
                  match parseJsonValue fuel (jsonWsDrop r3) with
                  | none => none
                  | some (v, r4) =>
                      match jsonWsDrop r4 with
                      | ',' :: r5 => parseJsonMembers fuel r5 ((String.mk key, v) :: acc)
                      | '}' :: r5 => some (vObj ((String.mk key, v) :: acc).reverse, r5)
                      | _ => none
              | _ => none
      | _ => none

end

/-- `JSON.parse`: a single JSON value surrounded by optional whitespace;
anything else throws, modelled by `none`. -/
def jsonParse (s : String) : Option JsValue :=
  match parseJsonValue (4 * (s.data.length + 1)) (jsonWsDrop s.data) with
  | some (v, rest) => if jsonWsDrop rest = [] then some v else none
  | none => none

/-- Decimal rendering of a non-integer exact decimal m·10^e (e < 0, m not
divisible by 10), matching what `String()` prints for such numbers. -/
def decString (m e : Int) : String :=
  let ds := natDigits m.natAbs
  let k := e.natAbs
  let body :=
    if k < ds.length then
      String.mk (ds.take (ds.length - k)) ++ "." ++ String.mk (ds.drop (ds.length - k))
    else
      "0." ++ String.mk (List.replicate (k - ds.length) '0') ++ String.mk ds
  if m < 0 then "-" ++ body else body

mutual

/-- JS `String(v)`: the conversions actually reachable for JSON-shaped
values (functions/symbols do not occur). -/
def jsString : JsValue → String
  | vUndefined => "undefined"
  | vNull => "null"
  | vBool b => if b then "true" else "false"
  | vNum n => toString n
  | vDec m e => decString m e
  | vNaN => "NaN"
  | vStr s => s
  | vArr xs => String.intercalate "," (jsJoinParts xs)
  | vObj _ => "[object Object]"

/-- The per-element strings of `Array.prototype.join`: `null` and
`undefined` become empty, everything else goes through `String()`. -/
def jsJoinParts : List JsValue → List String
  | [] => []
  | vNull :: vs => "" :: jsJoinParts vs
  | vUndefined :: vs => "" :: jsJoinParts vs
  | v :: vs => jsString v :: jsJoinParts vs

end

/-- `Array.prototype.join(sep)`. -/
def jsJoin (xs : List JsValue) (sep : String) : String :=
  String.intercalate sep (jsJoinParts xs)

/-- `raw.replace(/^\[|\]$/g, '')`: drop one leading `[` and one trailing
`]` if present. -/
def stripOuterBrackets (l : List Char) : List Char :=
  let l1 := match l with | '[' :: r => r | _ => l
  if l1.getLast? = some ']' then l1.dropLast else l1

/-- `formatTranslation(raw)` from the source: empty for a falsy string;
otherwise `JSON.parse` it — an array joins its elements with `；`, any
other value goes through `String()` — and if parsing throws, strip outer
brackets, remove every double quote, and trim. -/
def formatTranslation (raw : String) : String :=
  if raw = "" then ""
  else
    match jsonParse raw with
    | some (vArr xs) => jsJoin xs "；"
    | some v => jsString v
    | none => String.mk (trimJS ((stripOuterBrackets raw.data).filter (fun c => c ≠ '"')))

/-! ## Enrichment records and the scheduler (`processFiles`) -/

/-- `Number(s)` on the rank strings this program produces (`\d+` matches,
plus the empty/signed-integer cases); `none` models `NaN`.  The
float/hex/infinity forms of `Number` are not modelled — no rank string
uses them. -/
def jsNumber (s : String) : Option Int :=
  let t := trimJS s.data
  if t = [] then some 0
  else
    let signed := match t with | '-' :: r => ((-1 : Int), r) | '+' :: r => (1, r) | _ => (1, t)
    if signed.2 ≠ [] ∧ signed.2.all Char.isDigit then
      some (signed.1 * (signed.2.foldl (fun n d => n * 10 + ((d.toNat - '0'.toNat) : Int)) 0))
    else none

/-- The nested `video` object of a `ProcessedWord`. -/
structure VideoInfo where
  cover : JsValue
  title : JsValue
  url : JsValue
deriving Repr

/-- One output record (`ProcessedWord` in the source).  Fields filled from
the lookup response keep their raw `JsValue`, exactly as the untyped JS
object does. -/
structure ProcessedWord where
  text : String
  translation : String
  phoneticUs : JsValue
  phoneticUk : JsValue
  partOfSpeech : String
  inflections : JsValue
  tags : JsValue
  cocaRank : Option Int
  image : JsValue
  video : VideoInfo
deriving Repr

/-- One per-file result: `{ fileName, data }`. -/
structure FileResult where
  fileName : String
  data : List ProcessedWord
deriving Repr

/-- `a || b` on JS values (used for `getDeep(..., []) || []`). -/
def jsOr (a b : JsValue) : JsValue :=
  if truthy a then a else b

/-- Construction of one `ProcessedWord` from the fetch result `apiData`,
the entry, and one definition — the record literal of the source. -/
def mkProcessed (apiData : JsValue) (entry : WordEntry) (d : WordDef) : ProcessedWord :=
  { text := entry.word
    translation := formatTranslation d.trans
    partOfSpeech := d.pos
    cocaRank := jsNumber entry.rank
    phoneticUs := getDeep apiData "ec.word[0].usphone"
    phoneticUk := getDeep apiData "ec.word[0].ukphone"
    inflections := jsOr (getDeep apiData "collins_primary.words.indexforms" (vArr [])) (vArr [])
    tags := jsOr (getDeep apiData "ec.exam_type" (vArr [])) (vArr [])
    image := getDeep apiData "pic_dict.pic[0].image"
    video :=
      { cover := getDeep apiData "word_video.word_videos[0].video.cover"
        title := getDeep apiData "word_video.word_videos[0].video.title"
        url := getDeep apiData "word_video.word_videos[0].video.url" } }

/-- `entry.definitions.length > 0 ? entry.definitions : [{ pos: "unknown",
trans: entry.rawTrans }]`. -/
def definitionLoop (entry : WordEntry) : List WordDef :=
  if 0 < entry.definitions.length then entry.definitions
  else [WordDef.mk "unknown" entry.rawTrans]

/-- The records one settled task appends for its entry, in definition
order (`definitionLoop.forEach` runs synchronously once the task's fetch
has resolved).  `fetch` models `fetchWordData`: the parsed response, or
`vNull` on any failure. -/
def processEntry (fetch : String → JsValue) (entry : WordEntry) : List ProcessedWord :=
  (definitionLoop entry).map (mkProcessed (fetch entry.word) entry)

/-- The bounded-concurrency window size. -/
def CONCURRENCY : Nat := 5

/-- Fuel-driven splitting of a list into consecutive chunks of size `n`
(the `for (let i = 0; i < words.length; i += n)` / `slice(i, i + n)` loop,
for `n ≥ 1`).  The fuel only makes the recursion structural. -/
def chunksOfF (n : Nat) : Nat → List α → List (List α)
  | 0, _ => []
  | _, [] => []
  | fuel + 1, x :: xs => (x :: xs.take (n - 1)) :: chunksOfF n fuel (xs.drop (n - 1))

/-- Consecutive chunks of size `n` (`n ≥ 1`; the last may be shorter). -/
def chunksOf (n : Nat) (l : List α) : List (List α) :=
  chunksOfF n l.length l

/-- One settled task: append the entry's records to the file's list and
increment the global processed counter. -/
def runTask (fetch : String → JsValue) (st : List ProcessedWord × Nat) (e : WordEntry) :
    List ProcessedWord × Nat :=
  (st.1 ++ processEntry fetch e, st.2 + 1)

/-- One window: its tasks settle in the order given by `w`, which is some
permutation of the dispatched chunk (JS resumes each `async` callback when
its own fetch resolves, so pushes happen in completion order). -/
def runWindow (fetch : String → JsValue) (st : List ProcessedWord × Nat)
    (w : List WordEntry) : List ProcessedWord × Nat :=
  w.foldl (runTask fetch) st

/-- One file's window loop, starting from global counter `count`. -/
def runFileWindows (fetch : String → JsValue) (orders : List (List WordEntry))
    (count : Nat) : List ProcessedWord × Nat :=
  orders.foldl (runWindow fetch) ([], count)

/-- One input file as scheduled: its name, its raw text, and the
completion order of each dispatched window. -/
structure ScheduledFile where
  fileName : String
  text : String
  orders : List (List WordEntry)

/-- The parsed entries of a scheduled file. -/
def ScheduledFile.entries (f : ScheduledFile) : List WordEntry :=
  parseMarkdownFile f.text

/-- A scheduling is valid when each window's completion order is a
permutation of the corresponding dispatched chunk of `CONCURRENCY`
consecutive entries. -/
def ValidOrders (f : ScheduledFile) : Prop :=
  List.Forall₂ (fun c o => c.Perm o) (chunksOf CONCURRENCY f.entries) f.orders

/-- `processFiles` run to completion (no cancellation): files in input
order, windows in order with a barrier between them, tasks of a window in
completion order; returns all `FileResult`s and the final
`globalProcessedCount`. -/
def processFiles (fetch : String → JsValue) (files : List ScheduledFile) :
    List FileResult × Nat :=
  files.foldl
    (fun st f =>
      let r := runFileWindows fetch f.orders st.2
      (st.1 ++ [FileResult.mk f.fileName r.1], r.2))
    ([], 0)

/-! ### The cancellation model

`abortRef` is read at discrete check points (before each file, before each
window, at the start of each task, after each file's push).  A run with
cancellation is modelled by the number `budget` of checks that return
`false` before the flag is first observed `true`.  Checks that are
reached inside one synchronous JS section collapse (all five task checks
of a window read the same value the window check read; a dispatched
window therefore always settles completely, and the abort observed after
a push is the same observation as the next file-top check), so only the
file-top and window checks are counted. -/

/-- The records appended by one fully-settled window. -/
def windowRecords (fetch : String → JsValue) (w : List WordEntry) : List ProcessedWord :=
  w.flatMap (processEntry fetch)

/-- The records of the windows actually settled before observing the
abort flag; also returns the remaining budget and whether the abort was
observed during this file. -/
def runFileC (fetch : String → JsValue) : List (List WordEntry) → Nat →
    List ProcessedWord × Nat × Bool
  | [], b => ([], b, false)
  | _ :: _, 0 => ([], 0, true)
  | w :: ws, b + 1 =>
      let r := runFileC fetch ws b
      ((windowRecords fetch w) ++ r.1, r.2.1, r.2.2)

/-- `processFiles` under cancellation: the accumulated `allResults` list,
the remaining budget, and whether an abort was observed.  A file whose
top check observes the abort gets no entry; a file aborted mid-windows is
still pushed with its partial records (`allResults.push` runs after the
window loop breaks). -/
def processFilesC (fetch : String → JsValue) : List ScheduledFile → Nat →
    List FileResult × Nat × Bool
  | [], b => ([], b, false)
  | _ :: _, 0 => ([], 0, true)
  | f :: fs, b + 1 =>
      let r := runFileC fetch f.orders b
      if r.2.2 then ([FileResult.mk f.fileName r.1], r.2.1, true)
      else
        let rest := processFilesC fetch fs r.2.1
        (FileResult.mk f.fileName r.1 :: rest.1, rest.2.1, rest.2.2)

/-- What the caller receives in the `part_000` variant: `setResults` is
guarded by `if (!abortRef.current)`, so a run during which the abort flag
was (or is now) observed delivers nothing — `results` keeps the empty
list installed at the start of the run. -/
def deliveredPart000 (fetch : String → JsValue) (files : List ScheduledFile)
    (budget : Nat) : List FileResult :=
  if (processFilesC fetch files budget).2.2 || (processFilesC fetch files budget).2.1 == 0
  then [] else (processFilesC fetch files budget).1

/-- What the caller receives in the `App.tsx` variant: `setResults
(allResults)` runs unconditionally. -/
def deliveredAppTsx (fetch : String → JsValue) (files : List ScheduledFile)
    (budget : Nat) : List FileResult :=
  (processFilesC fetch files budget).1

/-! ## The exporters -/

/-- `results.flatMap(r => r.data)`: the merged record list. -/
def mergedData (results : List FileResult) : List ProcessedWord :=
  results.flatMap FileResult.data

/-- Fuel-driven body of `handleExportByQuantity`'s loop for a positive
`splitCount`: each pass emits `vocabulary_batch_${Math.floor(i /
splitCount) + 1}` with `allData.slice(i, i + splitCount)`. -/
def exportByQuantityF (B : Nat) : Nat → Nat → List ProcessedWord →
    List (String × List ProcessedWord)
  | 0, _, _ => []
  | _, _, [] => []
  | fuel + 1, i, x :: xs =>
      ("vocabulary_batch_" ++ toString (i / B + 1), x :: xs.take (B - 1)) ::
      exportByQuantityF B fuel (i + B) (xs.drop (B - 1))

/-- `handleExportByQuantity` for a positive `splitCount`: the sequence of
named batch payloads. -/
def handleExportByQuantity (allData : List ProcessedWord) (splitCount : Nat) :
    List (String × List ProcessedWord) :=
  exportByQuantityF splitCount allData.length 0 allData

/-- The loop counter of `handleExportByQuantity` after `n` iterations of
`i += splitCount`, starting from `0` — here `splitCount` may be any
integer, as the claim about non-termination concerns non-positive sizes. -/
def exportIter (B : Int) : Nat → Int
  | 0 => 0
  | n + 1 => exportIter B n + B

/-- Termination of the `for (let i = 0; i < allData.length; i +=
splitCount)` loop: some iteration count makes the guard fail. -/
def ExportLoopTerminates (L B : Int) : Prop :=
  ∃ n : Nat, ¬ exportIter B n < L

/-! ## Auxiliary definitions used by the proofs -/

/-- The walking step of `getDeep`'s loop. -/
def getDeepStep (cur : Option JsValue) (k : String) : Option JsValue :=
  match cur with
  | none => none
  | some c => if c.isNullOrUndefined then none else some (jsMember c k)

/-- Absence of a path in a response value, in the spec's sense: walking the
segments hits `null`/`undefined` before the end, or resolves to
`undefined`. -/
def absentAt (apiData : JsValue) (path : String) : Prop :=
  specResolve apiData (pathSegments path) = none ∨
  specResolve apiData (pathSegments path) = some vUndefined

/-- The records a file accumulates when its windows settle as `orders`. -/
def fileRecords (fetch : String → JsValue) (orders : List (List WordEntry)) :
    List ProcessedWord :=
  (orders.map (windowRecords fetch)).flatten

/-- `totalWords`, the sum of per-file entry counts used for
`progress.total`. -/
def totalWords (files : List ScheduledFile) : Nat :=
  (files.map (fun f => f.entries.length)).sum

/-! ## Helper lemmas -/

theorem getDeep_eq_foldl (obj : JsValue) (path : String) (d : JsValue) :
    getDeep obj path d =
      if !truthy obj then d
      else
        match (pathSegments path).foldl getDeepStep (some obj) with
        | none => d
        | some c => if c.isUndefined then d else c := rfl

theorem foldl_getDeepStep_none (keys : List String) :
    keys.foldl getDeepStep none = none := by
  induction keys with
  | nil => rfl
  | cons k ks ih => simpa [getDeepStep] using ih

theorem foldl_getDeepStep_eq_specResolve (keys : List String) (v : JsValue) :
    keys.foldl getDeepStep (some v) = specResolve v keys := by
  induction keys generalizing v with
  | nil => rfl
  | cons k ks ih =>
      by_cases h : v.isNullOrUndefined
      · simp only [List.foldl_cons, getDeepStep, h, if_pos, specResolve]
        simp [h, foldl_getDeepStep_none]
      · simp only [List.foldl_cons, getDeepStep, h, specResolve]
        simp [h, ih]

/-- Characterization of `getDeep` through the specification-side resolver:
the default for a falsy root, the default when some segment is looked up
on `null`/`undefined` or when the final value is `undefined`, and the
exact resolved value (including `null`) otherwise. -/
theorem getDeep_specResolve (obj : JsValue) (path : String) (d : JsValue) :
    getDeep obj path d =
      if truthy obj then
        match specResolve obj (pathSegments path) with
        | none => d
        | some v => if v.isUndefined then d else v
      else d := by
  rw [getDeep_eq_foldl, foldl_getDeepStep_eq_specResolve]
  cases truthy obj <;> simp

theorem getDeep_of_absent (apiData : JsValue) (path : String) (d : JsValue)
    (h : apiData = vNull ∨ absentAt apiData path) : getDeep apiData path d = d := by
  rcases h with h | h | h
  · subst h; rfl
  · rw [getDeep_specResolve, h]; cases truthy apiData <;> simp
  · rw [getDeep_specResolve, h]
    cases truthy apiData <;> simp [JsValue.isUndefined]

/-! ## Claim C3 -/

/-- C3, counterexample.  The claim says `FieldExtractor.get` returns the
default only when a path segment is absent (or the root is absent, or the
final value is `undefined`), and otherwise returns the exact resolved
value.  But the root `""` is a present value on which the segment
`"length"` resolves to `0`, and `getDeep` still returns the default
because its root check tests falsiness, not absence. -/
theorem claim_C3_counterexample :
    jsMember (vStr "") "length" = vNum 0 ∧
    getDeep (vStr "") "length" (vStr "D") = vStr "D" ∧
    vStr "D" ≠ vNum 0 := by
  refine ⟨rfl, rfl, ?_⟩
  intro h
  exact JsValue.noConfusion h

/-- C3, amended: `getDeep(obj, path, default)` returns the default
whenever the root `obj` is *falsy* (not merely absent), or a path segment
is looked up on `null`/`undefined`, or the final resolved value is
`undefined`; otherwise it returns the exact resolved value — in
particular a resolved `null` is returned as-is. -/
theorem claim_C3_amended (obj : JsValue) (path : String) (d : JsValue) :
    getDeep obj path d =
      if truthy obj then
        match specResolve obj (pathSegments path) with
        | none => d
        | some v => if v.isUndefined then d else v
      else d :=
  getDeep_specResolve obj path d

/-! ## Claim C9 -/

/-- C9: `getDeep` returns the default for *any* falsy root — `undefined`,
`null`, `false`, `0`, `NaN`, `""` — without traversing any field. -/
theorem claim_C9 (obj : JsValue) (path : String) (d : JsValue)
    (h : truthy obj = false) : getDeep obj path d = d := by
  unfold getDeep
  simp [h]

/-- C9, witness: every falsy root — including the present-but-falsy
values `0`, `""`, `false`, `NaN` — yields the default. -/
theorem claim_C9_witness :
    truthy (vNum 0) = false ∧ getDeep (vNum 0) "a.b" (vStr "D") = vStr "D" ∧
    getDeep (vStr "") "a.b" (vStr "D") = vStr "D" ∧
    getDeep (vBool false) "a.b" (vStr "D") = vStr "D" ∧
    getDeep vNaN "a.b" (vStr "D") = vStr "D" ∧
    getDeep vNull "a.b" (vStr "D") = vStr "D" ∧
    getDeep vUndefined "a.b" (vStr "D") = vStr "D" :=
  ⟨rfl, claim_C9 (vNum 0) "a.b" (vStr "D") rfl,
   claim_C9 (vStr "") "a.b" (vStr "D") rfl,
   claim_C9 (vBool false) "a.b" (vStr "D") rfl,
   claim_C9 vNaN "a.b" (vStr "D") rfl,
   claim_C9 vNull "a.b" (vStr "D") rfl,
   claim_C9 vUndefined "a.b" (vStr "D") rfl⟩

/-! ## Claim C4 -/

/-- C4: every record field sourced from the lookup response defaults to
the empty string / empty array when the lookup failed (`apiData` is the
`null` returned by `fetchWordData` on any failure) or when its path is
absent from the response; such a defaulted field is never `null` or
`undefined`.  (Record construction is a total function by definition, so
it cannot throw.) -/
theorem claim_C4 (apiData : JsValue) (entry : WordEntry) (d : WordDef) :
    ((apiData = vNull ∨ absentAt apiData "ec.word[0].usphone") →
      (mkProcessed apiData entry d).phoneticUs = vStr "" ∧
      (mkProcessed apiData entry d).phoneticUs.isNullOrUndefined = false) ∧
    ((apiData = vNull ∨ absentAt apiData "ec.word[0].ukphone") →
      (mkProcessed apiData entry d).phoneticUk = vStr "" ∧
      (mkProcessed apiData entry d).phoneticUk.isNullOrUndefined = false) ∧
    ((apiData = vNull ∨ absentAt apiData "collins_primary.words.indexforms") →
      (mkProcessed apiData entry d).inflections = vArr [] ∧
      (mkProcessed apiData entry d).inflections.isNullOrUndefined = false) ∧
    ((apiData = vNull ∨ absentAt apiData "ec.exam_type") →
      (mkProcessed apiData entry d).tags = vArr [] ∧
      (mkProcessed apiData entry d).tags.isNullOrUndefined = false) ∧
    ((apiData = vNull ∨ absentAt apiData "pic_dict.pic[0].image") →
      (mkProcessed apiData entry d).image = vStr "" ∧
      (mkProcessed apiData entry d).image.isNullOrUndefined = false) ∧
    ((apiData = vNull ∨ absentAt apiData "word_video.word_videos[0].video.cover") →
      (mkProcessed apiData entry d).video.cover = vStr "" ∧
      (mkProcessed apiData entry d).video.cover.isNullOrUndefined = false) ∧
    ((apiData = vNull ∨ absentAt apiData "word_video.word_videos[0].video.title") →
      (mkProcessed apiData entry d).video.title = vStr "" ∧
      (mkProcessed apiData entry d).video.title.isNullOrUndefined = false) ∧
    ((apiData = vNull ∨ absentAt apiData "word_video.word_videos[0].video.url") →
      (mkProcessed apiData entry d).video.url = vStr "" ∧
      (mkProcessed apiData entry d).video.url.isNullOrUndefined = false) := by
  refine ⟨fun h => ?_, fun h => ?_, fun h => ?_, fun h => ?_, fun h => ?_,
         fun h => ?_, fun h => ?_, fun h => ?_⟩ <;>
    simp only [mkProcessed, jsOr] <;>
    rw [getDeep_of_absent _ _ _ h] <;>
    exact ⟨rfl, rfl⟩

/-- C4, witness: a truthy response that simply lacks all the paths (the
empty object) yields empty-string / empty-array fields. -/
theorem claim_C4_witness :
    (mkProcessed (vObj []) (WordEntry.mk "1" "w" [] "") (WordDef.mk "unknown" "")).phoneticUs
      = vStr "" ∧
    (mkProcessed (vObj []) (WordEntry.mk "1" "w" [] "") (WordDef.mk "unknown" "")).inflections
      = vArr [] ∧
    (mkProcessed (vObj []) (WordEntry.mk "1" "w" [] "") (WordDef.mk "unknown" "")).tags
      = vArr [] ∧
    (mkProcessed (vObj []) (WordEntry.mk "1" "w" [] "") (WordDef.mk "unknown" "")).video.url
      = vStr "" :=
  have h := claim_C4 (vObj []) (WordEntry.mk "1" "w" [] "") (WordDef.mk "unknown" "")
  ⟨(h.1 (Or.inr (Or.inl rfl))).1,
   (h.2.2.1 (Or.inr (Or.inl rfl))).1,
   (h.2.2.2.1 (Or.inr (Or.inl rfl))).1,
   (h.2.2.2.2.2.2.2 (Or.inr (Or.inl rfl))).1⟩

/-! ## Claims C1 and C5: records per entry -/

theorem definitionLoop_of_empty (e : WordEntry) (h : e.definitions = []) :
    definitionLoop e = [WordDef.mk "unknown" e.rawTrans] := by
  simp [definitionLoop, h]

theorem definitionLoop_of_ne (e : WordEntry) (h : e.definitions ≠ []) :
    definitionLoop e = e.definitions := by
  simp [definitionLoop, List.length_pos.mpr h]

/-- C1, counterexample.  The block `"1 hello\nx[\" n. abc"` parses to an
entry with zero definitions whose raw sense line is `x[" n. abc`; the one
record produced for it carries `formatTranslation` of that line — the
quote is stripped — so its translation is *not* the raw sense line, as
the claim states. -/
theorem claim_C1_counterexample :
    parseMarkdownFile "1 hello\nx[\" n. abc" =
      [WordEntry.mk "1" "hello" [] "x[\" n. abc"] ∧
    (processEntry (fun _ => vNull) (WordEntry.mk "1" "hello" [] "x[\" n. abc")).map
        ProcessedWord.translation = ["x[ n. abc"] ∧
    ("x[ n. abc" : String) ≠ "x[\" n. abc" := by
  refine ⟨by decide, rfl, by decide⟩

/-- C1, amended: a parsed entry with zero definitions yields exactly one
record, with part of speech `"unknown"` and translation
`formatTranslation` of the raw sense line (the raw line itself only when
that formatting is the identity on it — e.g. when the line is empty). -/
theorem claim_C1_amended (fetch : String → JsValue) (text : String) (e : WordEntry)
    (he : e ∈ parseMarkdownFile text) (h0 : e.definitions = []) :
    processEntry fetch e =
      [mkProcessed (fetch e.word) e (WordDef.mk "unknown" e.rawTrans)] ∧
    (mkProcessed (fetch e.word) e (WordDef.mk "unknown" e.rawTrans)).partOfSpeech
      = "unknown" ∧
    (mkProcessed (fetch e.word) e (WordDef.mk "unknown" e.rawTrans)).translation
      = formatTranslation e.rawTrans := by
  refine ⟨?_, rfl, rfl⟩
  rw [processEntry, definitionLoop_of_empty e h0, List.map_singleton]

/-- C1 amended, witness on the counterexample input. -/
theorem claim_C1_amended_witness :
    (WordEntry.mk "1" "hello" [] "x[\" n. abc") ∈
        parseMarkdownFile "1 hello\nx[\" n. abc" ∧
    processEntry (fun _ => vNull) (WordEntry.mk "1" "hello" [] "x[\" n. abc") =
      [mkProcessed vNull (WordEntry.mk "1" "hello" [] "x[\" n. abc")
        (WordDef.mk "unknown" "x[\" n. abc")] :=
  ⟨by decide,
   (claim_C1_amended (fun _ => vNull) "1 hello\nx[\" n. abc"
      (WordEntry.mk "1" "hello" [] "x[\" n. abc") (by decide) rfl).1⟩

/-- C5: a parsed entry with `N > 0` definitions yields exactly `N`
records; each shares the entry's headword and frequency rank and carries
its own definition's part of speech and (formatted) translation. -/
theorem claim_C5 (fetch : String → JsValue) (text : String) (e : WordEntry)
    (he : e ∈ parseMarkdownFile text) (h0 : e.definitions ≠ []) :
    (processEntry fetch e).length = e.definitions.length ∧
    List.Forall₂
      (fun d r =>
        r.text = e.word ∧ r.cocaRank = jsNumber e.rank ∧
        r.partOfSpeech = d.pos ∧ r.translation = formatTranslation d.trans)
      e.definitions (processEntry fetch e) := by
  rw [processEntry, definitionLoop_of_ne e h0]
  refine ⟨by simp, ?_⟩
  rw [List.forall₂_map_right_iff]
  rw [List.forall₂_same]
  intro d hd
  exact ⟨rfl, rfl, rfl, rfl⟩

/-- C5, witness: the two-definition entry parsed from
`"1 run\nv. [\"pao\"]  n. [\"paobu\"]"`. -/
theorem claim_C5_witness :
    (processEntry (fun _ => vNull)
        (WordEntry.mk "1" "run"
          [WordDef.mk "v" "[\"pao\"]", WordDef.mk "n" "[\"paobu\"]"]
          "v. [\"pao\"]  n. [\"paobu\"]")).length = 2 ∧
    List.Forall₂
      (fun d r =>
        r.text = "run" ∧ r.cocaRank = jsNumber "1" ∧
        r.partOfSpeech = d.pos ∧ r.translation = formatTranslation d.trans)
      [WordDef.mk "v" "[\"pao\"]", WordDef.mk "n" "[\"paobu\"]"]
      (processEntry (fun _ => vNull)
        (WordEntry.mk "1" "run"
          [WordDef.mk "v" "[\"pao\"]", WordDef.mk "n" "[\"paobu\"]"]
          "v. [\"pao\"]  n. [\"paobu\"]")) :=
  claim_C5 (fun _ => vNull) "1 run\nv. [\"pao\"]  n. [\"paobu\"]"
    (WordEntry.mk "1" "run"
      [WordDef.mk "v" "[\"pao\"]", WordDef.mk "n" "[\"paobu\"]"]
      "v. [\"pao\"]  n. [\"paobu\"]")
    (by decide) (by decide)

/-! ## Chunking lemmas -/

theorem chunksOfF_congr (n : Nat) :
    ∀ (f1 f2 : Nat) (l : List α), l.length ≤ f1 → l.length ≤ f2 →
      chunksOfF n f1 l = chunksOfF n f2 l := by
  intro f1
  induction f1 with
  | zero =>
      intro f2 l h1 h2
      have : l = [] := List.eq_nil_of_length_eq_zero (Nat.le_zero.mp h1)
      subst this
      cases f2 <;> rfl
  | succ f ih =>
      intro f2 l h1 h2
      cases l with
      | nil => cases f2 <;> rfl
      | cons x xs =>
          cases f2 with
          | zero => simp at h2
          | succ f2' =>
              simp only [chunksOfF]
              congr 1
              apply ih
              · have := List.length_drop (n - 1) xs
                simp only [List.length_cons] at h1
                omega
              · have := List.length_drop (n - 1) xs
                simp only [List.length_cons] at h2
                omega

theorem chunksOf_nil (n : Nat) : chunksOf n ([] : List α) = [] := rfl

theorem chunksOf_cons (n : Nat) (x : α) (xs : List α) :
    chunksOf n (x :: xs) = (x :: xs.take (n - 1)) :: chunksOf n (xs.drop (n - 1)) := by
  unfold chunksOf
  simp only [List.length_cons, chunksOfF]
  congr 1
  apply chunksOfF_congr
  · have := List.length_drop (n - 1) xs
    omega
  · exact le_rfl

theorem chunksOf_flatten (n : Nat) : ∀ l : List α, (chunksOf n l).flatten = l
  | [] => rfl
  | x :: xs => by
      rw [chunksOf_cons, List.flatten_cons, chunksOf_flatten n (xs.drop (n - 1))]
      simp [List.take_append_drop]
termination_by l => l.length
decreasing_by
  have := List.length_drop (n - 1) xs
  simp only [List.length_cons]
  omega

theorem chunksOf_length (n : Nat) (hn : 0 < n) :
    ∀ l : List α, (chunksOf n l).length = (l.length + n - 1) / n
  | [] => by
      simp only [chunksOf_nil, List.length_nil]
      rw [Nat.div_eq_of_lt (by omega)]
  | x :: xs => by
      rw [chunksOf_cons]
      simp only [List.length_cons]
      rw [chunksOf_length n hn (xs.drop (n - 1))]
      rw [List.length_drop]
      rcases Nat.lt_or_ge xs.length n with hlt | hge
      · have h1 : xs.length - (n - 1) + n - 1 < n := by omega
        have h2 : xs.length + 1 + n - 1 = xs.length + n := by omega
        rw [Nat.div_eq_of_lt h1, h2, Nat.add_div_right _ hn]
        have : xs.length / n = 0 := Nat.div_eq_of_lt hlt
        omega
      · have h1 : xs.length - (n - 1) + n - 1 = xs.length := by omega
        have h2 : xs.length + 1 + n - 1 = (xs.length - n) + n + n := by omega
        have h3 : xs.length = (xs.length - n) + n := by omega
        rw [h1, h2, Nat.add_div_right _ hn, Nat.add_div_right _ hn]
        conv_lhs => rw [h3, Nat.add_div_right _ hn]
termination_by l => l.length
decreasing_by
  have := List.length_drop (n - 1) xs
  simp only [List.length_cons]
  omega

theorem chunksOf_mem_length (n : Nat) (hn : 0 < n) :
    ∀ (l : List α), ∀ c ∈ chunksOf n l, 0 < c.length ∧ c.length ≤ n
  | [], c, hc => by simp [chunksOf_nil] at hc
  | x :: xs, c, hc => by
      rw [chunksOf_cons] at hc
      rcases List.mem_cons.mp hc with h | h
      · subst h
        simp only [List.length_cons, List.length_take]
        omega
      · exact chunksOf_mem_length n hn (xs.drop (n - 1)) c h
termination_by l => l.length
decreasing_by
  have := List.length_drop (n - 1) xs
  simp only [List.length_cons]
  omega

theorem chunksOf_ne_nil_of_ne_nil (n : Nat) (l : List α) (h : l ≠ []) :
    chunksOf n l ≠ [] := by
  cases l with
  | nil => exact absurd rfl h
  | cons x xs => rw [chunksOf_cons]; exact List.cons_ne_nil _ _

theorem chunksOf_dropLast_length (n : Nat) (hn : 0 < n) :
    ∀ (l : List α), ∀ c ∈ (chunksOf n l).dropLast, c.length = n
  | [], c, hc => by simp [chunksOf_nil] at hc
  | x :: xs, c, hc => by
      rw [chunksOf_cons] at hc
      by_cases hrest : chunksOf n (xs.drop (n - 1)) = []
      · rw [hrest] at hc
        simp at hc
      · rw [List.dropLast_cons_of_ne_nil hrest] at hc
        rcases List.mem_cons.mp hc with h | h
        · subst h
          have hd : xs.drop (n - 1) ≠ [] := by
            intro he
            exact hrest (by rw [he]; rfl)
          have hlen : n - 1 < xs.length := by
            by_contra hcon
            exact hd (List.drop_eq_nil_of_le (by omega))
          simp only [List.length_cons, List.length_take]
          omega
        · exact chunksOf_dropLast_length n hn (xs.drop (n - 1)) c h
termination_by l => l.length
decreasing_by
  have := List.length_drop (n - 1) xs
  simp only [List.length_cons]
  omega

/-! ## Claim C7: fixed-size batch export -/

theorem exportByQuantityF_snd (B : Nat) :
    ∀ (fuel : Nat) (data : List ProcessedWord) (i : Nat), data.length ≤ fuel →
      (exportByQuantityF B fuel i data).map Prod.snd = chunksOf B data := by
  intro fuel
  induction fuel with
  | zero =>
      intro data i h
      have : data = [] := List.eq_nil_of_length_eq_zero (Nat.le_zero.mp h)
      subst this
      rfl
  | succ f ih =>
      intro data i h
      cases data with
      | nil => rfl
      | cons x xs =>
          simp only [exportByQuantityF, List.map_cons, chunksOf_cons]
          congr 1
          apply ih
          have := List.length_drop (B - 1) xs
          simp only [List.length_cons] at h
          omega

theorem exportByQuantityF_fst (B : Nat) (hB : 0 < B) :
    ∀ (fuel : Nat) (data : List ProcessedWord) (m : Nat), data.length ≤ fuel →
      (exportByQuantityF B fuel (m * B) data).map Prod.fst =
        (List.range (chunksOf B data).length).map
          (fun k => "vocabulary_batch_" ++ toString (m + k + 1)) := by
  intro fuel
  induction fuel with
  | zero =>
      intro data m h
      have : data = [] := List.eq_nil_of_length_eq_zero (Nat.le_zero.mp h)
      subst this
      rfl
  | succ f ih =>
      intro data m h
      cases data with
      | nil => rfl
      | cons x xs =>
          simp only [exportByQuantityF, List.map_cons, chunksOf_cons, List.length_cons]
          rw [List.range_succ_eq_map, List.map_cons]
          have hlen : (xs.drop (B - 1)).length ≤ f := by
            have := List.length_drop (B - 1) xs
            simp only [List.length_cons] at h
            omega
          congr 1
          · congr 1
            rw [Nat.mul_div_cancel m hB]
          · have hm : m * B + B = (m + 1) * B := by ring
            rw [hm, ih (xs.drop (B - 1)) (m + 1) hlen, List.map_map]
            apply List.map_congr_left
            intro k hk
            simp only [Function.comp]
            congr 2
            omega

/-- C7: for a merged list of length `L` and a positive batch size `B`,
`handleExportByQuantity` emits exactly `⌈L/B⌉` payloads; the chunks are
consecutive (their concatenation is the merged list), every chunk but the
last has size exactly `B`, no chunk exceeds `B` or is empty, and the batch
names carry indices `1, 2, ...`. -/
theorem claim_C7 (allData : List ProcessedWord) (B : Nat) (hB : 0 < B) :
    (handleExportByQuantity allData B).length = (allData.length + B - 1) / B ∧
    ((handleExportByQuantity allData B).map Prod.snd).flatten = allData ∧
    (∀ p ∈ (handleExportByQuantity allData B).dropLast, p.2.length = B) ∧
    (∀ p ∈ handleExportByQuantity allData B, 0 < p.2.length ∧ p.2.length ≤ B) ∧
    (handleExportByQuantity allData B).map Prod.fst =
      (List.range (handleExportByQuantity allData B).length).map
        (fun k => "vocabulary_batch_" ++ toString (k + 1)) := by
  have hsnd : (handleExportByQuantity allData B).map Prod.snd = chunksOf B allData :=
    exportByQuantityF_snd B allData.length allData 0 le_rfl
  have hlen : (handleExportByQuantity allData B).length = (chunksOf B allData).length := by
    rw [← hsnd, List.length_map]
  refine ⟨?_, ?_, ?_, ?_, ?_⟩
  · rw [hlen, chunksOf_length B hB]
  · rw [hsnd, chunksOf_flatten]
  · intro p hp
    have hmem : p.2 ∈ (chunksOf B allData).dropLast := by
      rw [← hsnd, ← List.map_dropLast]
      exact List.mem_map_of_mem Prod.snd hp
    exact chunksOf_dropLast_length B hB allData p.2 hmem
  · intro p hp
    have hmem : p.2 ∈ chunksOf B allData := by
      rw [← hsnd]
      exact List.mem_map_of_mem Prod.snd hp
    exact chunksOf_mem_length B hB allData p.2 hmem
  · have hfst := exportByQuantityF_fst B hB allData.length allData 0 le_rfl
    simp only [Nat.zero_mul] at hfst
    have hfst' : (handleExportByQuantity allData B).map Prod.fst =
        (List.range (chunksOf B allData).length).map
          (fun k => "vocabulary_batch_" ++ toString (0 + k + 1)) := hfst
    rw [hfst', hlen]
    apply List.map_congr_left
    intro k hk
    congr 2
    omega

/-- C7, witness: five records split into batches of two. -/
theorem claim_C7_witness :
    (handleExportByQuantity
        (List.replicate 5 (mkProcessed vNull (WordEntry.mk "1" "w" [] "")
          (WordDef.mk "unknown" ""))) 2).length = 3 ∧
    (handleExportByQuantity
        (List.replicate 5 (mkProcessed vNull (WordEntry.mk "1" "w" [] "")
          (WordDef.mk "unknown" ""))) 2).map Prod.fst =
      ["vocabulary_batch_1", "vocabulary_batch_2", "vocabulary_batch_3"] := by
  have h := claim_C7
    (List.replicate 5 (mkProcessed vNull (WordEntry.mk "1" "w" [] "")
      (WordDef.mk "unknown" ""))) 2 (by decide)
  refine ⟨?_, ?_⟩
  · rw [h.1]
    rfl
  · rw [h.2.2.2.2, h.1]
    rfl

/-! ## Claim C10: termination of the batch-export loop -/

theorem exportIter_eq (B : Int) (n : Nat) : exportIter B n = n * B := by
  induction n with
  | zero => simp [exportIter]
  | succ k ih =>
      rw [exportIter, ih]
      push_cast
      ring

/-- C10: the `for (let i = 0; i < allData.length; i += splitCount)` loop of
`handleExportByQuantity` terminates exactly when the merged list is empty
or the batch size is strictly positive; a non-empty list with a zero or
negative batch size loops forever. -/
theorem claim_C10 (allData : List ProcessedWord) (B : Int) :
    ExportLoopTerminates allData.length B ↔ (allData = [] ∨ 0 < B) := by
  constructor
  · intro ht
    by_contra hcon
    push_neg at hcon
    obtain ⟨hne, hB⟩ := hcon
    obtain ⟨n, hn⟩ := ht
    apply hn
    rw [exportIter_eq]
    have h1 : (n : Int) * B ≤ 0 := by
      rcases Nat.eq_zero_or_pos n with h | h
      · simp [h]
      · exact mul_nonpos_iff.mpr (Or.inl ⟨by exact_mod_cast Nat.zero_le n, hB⟩)
    have h2 : (0 : Int) < allData.length := by
      have : allData.length ≠ 0 := fun hz => hne (List.eq_nil_of_length_eq_zero hz)
      omega
    omega
  · intro h
    rcases h with h | h
    · exact ⟨0, by simp [exportIter, h]⟩
    · refine ⟨allData.length, ?_⟩
      rw [exportIter_eq]
      have : (allData.length : Int) * 1 ≤ allData.length * B := by
        apply mul_le_mul_of_nonneg_left
        · omega
        · exact_mod_cast Nat.zero_le allData.length
      simp only [mul_one] at this
      omega

/-! ## Run lemmas -/

theorem runWindow_eq (fetch : String → JsValue) (st : List ProcessedWord × Nat)
    (w : List WordEntry) :
    runWindow fetch st w = (st.1 ++ windowRecords fetch w, st.2 + w.length) := by
  induction w generalizing st with
  | nil => simp [runWindow, windowRecords]
  | cons e es ih =>
      simp only [runWindow, List.foldl_cons] at *
      rw [ih (runTask fetch st e)]
      simp [runTask, windowRecords, List.flatMap_cons]
      omega

theorem foldl_runWindow_eq (fetch : String → JsValue) (orders : List (List WordEntry)) :
    ∀ st : List ProcessedWord × Nat,
      orders.foldl (runWindow fetch) st =
        (st.1 ++ fileRecords fetch orders, st.2 + (orders.map List.length).sum) := by
  induction orders with
  | nil => intro st; simp [fileRecords]
  | cons w ws ih =>
      intro st
      simp only [List.foldl_cons]
      rw [runWindow_eq, ih]
      simp [fileRecords, List.append_assoc]
      omega

theorem runFileWindows_eq (fetch : String → JsValue) (orders : List (List WordEntry))
    (count : Nat) :
    runFileWindows fetch orders count =
      (fileRecords fetch orders, count + (orders.map List.length).sum) := by
  rw [runFileWindows, foldl_runWindow_eq]
  simp

theorem foldl_processFiles_eq (fetch : String → JsValue) (files : List ScheduledFile) :
    ∀ st : List FileResult × Nat,
      files.foldl
          (fun st f =>
            let r := runFileWindows fetch f.orders st.2
            (st.1 ++ [FileResult.mk f.fileName r.1], r.2))
          st =
        (st.1 ++ files.map (fun f => FileResult.mk f.fileName (fileRecords fetch f.orders)),
         st.2 + (files.map (fun f => (f.orders.map List.length).sum)).sum) := by
  induction files with
  | nil => intro st; simp
  | cons f fs ih =>
      intro st
      simp only [List.foldl_cons]
      rw [runFileWindows_eq]
      rw [ih]
      simp [List.append_assoc]
      omega

theorem processFiles_eq (fetch : String → JsValue) (files : List ScheduledFile) :
    processFiles fetch files =
      (files.map (fun f => FileResult.mk f.fileName (fileRecords fetch f.orders)),
       (files.map (fun f => (f.orders.map List.length).sum)).sum) := by
  rw [processFiles, foldl_processFiles_eq]
  simp

theorem forall₂_perm_sum_lengths :
    ∀ {l₁ l₂ : List (List WordEntry)}, List.Forall₂ (fun c o => c.Perm o) l₁ l₂ →
      (l₁.map List.length).sum = (l₂.map List.length).sum := by
  intro l₁ l₂ h
  induction h with
  | nil => rfl
  | cons hp _ ih => simp [hp.length_eq, ih]

/-- For a valid scheduling, the number of settled tasks of a file equals
its entry count. -/
theorem valid_sum_lengths (f : ScheduledFile) (h : ValidOrders f) :
    (f.orders.map List.length).sum = f.entries.length := by
  rw [← forall₂_perm_sum_lengths h, ← List.length_flatten, chunksOf_flatten]

/-- For a valid scheduling, a file's accumulated records are a permutation
of the entry-ordered concatenation of per-entry record lists. -/
theorem valid_records_perm (fetch : String → JsValue) (f : ScheduledFile)
    (h : ValidOrders f) :
    (fileRecords fetch f.orders).Perm (f.entries.flatMap (processEntry fetch)) := by
  have h1 : ∀ {l₁ l₂ : List (List WordEntry)},
      List.Forall₂ (fun c o => c.Perm o) l₁ l₂ →
      List.Forall₂ (fun a b => a.Perm b)
        (l₂.map (windowRecords fetch)) (l₁.map (windowRecords fetch)) := by
    intro l₁ l₂ hf
    induction hf with
    | nil => exact List.Forall₂.nil
    | cons hp _ ih =>
        exact List.Forall₂.cons ((hp.flatMap_right (processEntry fetch)).symm) ih
  have h2 : (fileRecords fetch f.orders).Perm
      (((chunksOf CONCURRENCY f.entries).map (windowRecords fetch)).flatten) :=
    List.Perm.flatten_congr (h1 h)
  have h3 : ∀ L : List (List WordEntry),
      (L.map (windowRecords fetch)).flatten = L.flatten.flatMap (processEntry fetch) := by
    intro L
    induction L with
    | nil => rfl
    | cons w ws ih =>
        simp [windowRecords, List.flatMap_append, ih]
  rw [h3, chunksOf_flatten] at h2
  exact h2

theorem processEntry_length (fetch : String → JsValue) (e : WordEntry) :
    (processEntry fetch e).length = max 1 e.definitions.length := by
  rw [processEntry, List.length_map, definitionLoop]
  split
  · omega
  · simp only [List.length_singleton]
    omega

/-! ## Claim C6 -/

/-- C6: a run completing without cancellation ends with
`globalProcessedCount` equal to the total entry count over all files, and
each file's result holds exactly `Σ max(1, definitions.length)` records. -/
theorem claim_C6 (fetch : String → JsValue) (files : List ScheduledFile)
    (hv : ∀ f ∈ files, ValidOrders f) :
    (processFiles fetch files).2 = totalWords files ∧
    List.Forall₂
      (fun f r => r.fileName = f.fileName ∧
        r.data.length = (f.entries.map (fun e => max 1 e.definitions.length)).sum)
      files (processFiles fetch files).1 := by
  rw [processFiles_eq]
  constructor
  · show (files.map (fun f => (f.orders.map List.length).sum)).sum = totalWords files
    unfold totalWords
    induction files with
    | nil => rfl
    | cons f fs ih =>
        simp only [List.map_cons, List.sum_cons]
        rw [valid_sum_lengths f (hv f (List.mem_cons_self f fs)),
          ih (fun g hg => hv g (List.mem_cons_of_mem f hg))]
  · rw [List.forall₂_map_right_iff, List.forall₂_same]
    intro f hf
    refine ⟨rfl, ?_⟩
    rw [(valid_records_perm fetch f (hv f hf)).length_eq, List.length_flatMap]
    congr 1
    apply List.map_congr_left
    intro e he
    exact processEntry_length fetch e

/-- C6, witness: one file with three entries (two with one definition, one
with none), scheduled in dispatch order. -/
theorem claim_C6_witness :
    (processFiles (fun _ => vNull)
        [ScheduledFile.mk "a" "1 alpha\nn. [\"x\"]\n\n2 beta\ny\n\n3 gamma\nv. [\"z\"]"
          (chunksOf CONCURRENCY
            (parseMarkdownFile "1 alpha\nn. [\"x\"]\n\n2 beta\ny\n\n3 gamma\nv. [\"z\"]"))]).2
      = 3 ∧
    ((processFiles (fun _ => vNull)
        [ScheduledFile.mk "a" "1 alpha\nn. [\"x\"]\n\n2 beta\ny\n\n3 gamma\nv. [\"z\"]"
          (chunksOf CONCURRENCY
            (parseMarkdownFile "1 alpha\nn. [\"x\"]\n\n2 beta\ny\n\n3 gamma\nv. [\"z\"]"))]).1.map
        (fun r => r.data.length)) = [3] := by
  have h := claim_C6 (fun _ => vNull)
    [ScheduledFile.mk "a" "1 alpha\nn. [\"x\"]\n\n2 beta\ny\n\n3 gamma\nv. [\"z\"]"
      (chunksOf CONCURRENCY
        (parseMarkdownFile "1 alpha\nn. [\"x\"]\n\n2 beta\ny\n\n3 gamma\nv. [\"z\"]"))]
    (by
      intro f hf
      rw [List.mem_singleton] at hf
      subst hf
      show List.Forall₂ (fun c o => c.Perm o)
        (chunksOf CONCURRENCY
          (parseMarkdownFile "1 alpha\nn. [\"x\"]\n\n2 beta\ny\n\n3 gamma\nv. [\"z\"]"))
        (chunksOf CONCURRENCY
          (parseMarkdownFile "1 alpha\nn. [\"x\"]\n\n2 beta\ny\n\n3 gamma\nv. [\"z\"]"))
      rw [List.forall₂_same]
      intro c hc
      exact List.Perm.refl c)
  refine ⟨?_, ?_⟩
  · rw [h.1]
    rfl
  · rfl

/-! ## Claim C2 -/

/-- C2, counterexample.  One file with two zero-definition entries in a
single window, whose lookups complete in reversed order: the records the
run delivers are in completion order (`beta` before `alpha`), not in
source entry order, so the claimed ordering does *not* hold "regardless
of the completion order of the concurrent lookups within a window" — each
task pushes its records when its own fetch resolves. -/
theorem claim_C2_counterexample :
    ValidOrders
      (ScheduledFile.mk "f" "1 alpha\nx\n\n2 beta\ny"
        [[WordEntry.mk "2" "beta" [] "", WordEntry.mk "1" "alpha" [] ""]]) ∧
    ((processFiles (fun _ => vNull)
        [ScheduledFile.mk "f" "1 alpha\nx\n\n2 beta\ny"
          [[WordEntry.mk "2" "beta" [] "", WordEntry.mk "1" "alpha" [] ""]]]).1.map
      (fun r => r.data.map ProcessedWord.text)) = [["beta", "alpha"]] ∧
    (((ScheduledFile.mk "f" "1 alpha\nx\n\n2 beta\ny"
        [[WordEntry.mk "2" "beta" [] "", WordEntry.mk "1" "alpha" [] ""]]).entries.flatMap
      (processEntry (fun _ => vNull))).map ProcessedWord.text) = ["alpha", "beta"] ∧
    (["beta", "alpha"] : List String) ≠ ["alpha", "beta"] := by
  refine ⟨?_, rfl, rfl, by decide⟩
  show List.Forall₂ (fun c o => c.Perm o)
    (chunksOf CONCURRENCY (parseMarkdownFile "1 alpha\nx\n\n2 beta\ny"))
    [[WordEntry.mk "2" "beta" [] "", WordEntry.mk "1" "alpha" [] ""]]
  have hch : chunksOf CONCURRENCY (parseMarkdownFile "1 alpha\nx\n\n2 beta\ny") =
      [[WordEntry.mk "1" "alpha" [] "", WordEntry.mk "2" "beta" [] ""]] := by decide
  rw [hch]
  exact List.Forall₂.cons (by decide) List.Forall₂.nil

/-- C2, amended: a completed file's records are the concatenation, window
by window in dispatch order, of per-window blocks; inside a window the
per-entry blocks appear contiguously in the order the window's lookups
complete (some permutation of the dispatched chunk), each block in
definition order.  The full list is therefore always a permutation of the
entry-ordered concatenation, and equals it exactly when every window
completes in dispatch order — but not regardless of completion order. -/
theorem claim_C2_amended (fetch : String → JsValue) (f : ScheduledFile)
    (hv : ValidOrders f) :
    fileRecords fetch f.orders =
      (f.orders.map (fun w => w.flatMap (processEntry fetch))).flatten ∧
    (fileRecords fetch f.orders).Perm (f.entries.flatMap (processEntry fetch)) ∧
    (f.orders = chunksOf CONCURRENCY f.entries →
      fileRecords fetch f.orders = f.entries.flatMap (processEntry fetch)) := by
  refine ⟨rfl, valid_records_perm fetch f hv, ?_⟩
  intro ho
  have h3 : ∀ L : List (List WordEntry),
      (L.map (windowRecords fetch)).flatten = L.flatten.flatMap (processEntry fetch) := by
    intro L
    induction L with
    | nil => rfl
    | cons w ws ih => simp [windowRecords, List.flatMap_append, ih]
  rw [fileRecords, ho, h3, chunksOf_flatten]

/-- C2 amended, witness: the same two-entry file scheduled in dispatch
order delivers the records in source entry order. -/
theorem claim_C2_amended_witness :
    fileRecords (fun _ => vNull)
        (chunksOf CONCURRENCY (parseMarkdownFile "1 alpha\nx\n\n2 beta\ny")) =
      (parseMarkdownFile "1 alpha\nx\n\n2 beta\ny").flatMap
        (processEntry (fun _ => vNull)) :=
  (claim_C2_amended (fun _ => vNull)
    (ScheduledFile.mk "f" "1 alpha\nx\n\n2 beta\ny"
      (chunksOf CONCURRENCY (parseMarkdownFile "1 alpha\nx\n\n2 beta\ny")))
    (by
      show List.Forall₂ (fun c o => c.Perm o)
        (chunksOf CONCURRENCY (parseMarkdownFile "1 alpha\nx\n\n2 beta\ny"))
        (chunksOf CONCURRENCY (parseMarkdownFile "1 alpha\nx\n\n2 beta\ny"))
      rw [List.forall₂_same]
      intro c hc
      exact List.Perm.refl c)).2.2 rfl

/-! ## Claim C8 -/

theorem fileRecords_cons (fetch : String → JsValue) (w : List WordEntry)
    (ws : List (List WordEntry)) :
    fileRecords fetch (w :: ws) = windowRecords fetch w ++ fileRecords fetch ws := by
  simp [fileRecords]

/-- Shape of one file's records under cancellation: if the abort was
observed during this file, the records are those of a strict prefix of
its windows (and the budget is exhausted); otherwise they are the full
records. -/
theorem runFileC_shape (fetch : String → JsValue) :
    ∀ (orders : List (List WordEntry)) (b : Nat),
      ((runFileC fetch orders b).2.2 = true →
        ∃ w, w < orders.length ∧
          (runFileC fetch orders b).1 = fileRecords fetch (orders.take w) ∧
          (runFileC fetch orders b).2.1 = 0) ∧
      ((runFileC fetch orders b).2.2 = false →
        (runFileC fetch orders b).1 = fileRecords fetch orders) := by
  intro orders
  induction orders with
  | nil =>
      intro b
      exact ⟨fun h => by simp [runFileC] at h, fun _ => rfl⟩
  | cons w ws ih =>
      intro b
      cases b with
      | zero =>
          refine ⟨fun _ => ⟨0, by simp [runFileC], rfl, rfl⟩, fun h => ?_⟩
          simp [runFileC] at h
      | succ b' =>
          have hr : runFileC fetch (w :: ws) (b' + 1) =
              ((windowRecords fetch w) ++ (runFileC fetch ws b').1,
               (runFileC fetch ws b').2.1, (runFileC fetch ws b').2.2) := rfl
          constructor
          · intro hab
            rw [hr] at hab ⊢
            obtain ⟨w', hw', hrec, hbud⟩ := (ih b').1 hab
            refine ⟨w' + 1, by simpa using Nat.succ_lt_succ hw', ?_, hbud⟩
            simp only [List.take_succ_cons, fileRecords_cons, hrec]
          · intro hab
            rw [hr] at hab ⊢
            rw [(ih b').2 hab, fileRecords_cons]

/-- C8, amended: the run's accumulated result list under any cancellation
point consists of the full `FileResult`s of the files completed before
the abort was observed, in order, followed by at most one possibly
shorter `FileResult` (a strict prefix of its windows) for the file in
progress, and nothing for files not yet started.  The `App.tsx` variant
delivers exactly this list to the caller (`setResults(allResults)` is
unconditional); the `part_000` variant delivers it only when no abort was
observed — a cancelled run leaves its caller with the empty result list
installed at start. -/
theorem claim_C8_amended (fetch : String → JsValue) :
    ∀ (files : List ScheduledFile) (budget : Nat),
      (∃ k, k ≤ files.length ∧
        (deliveredAppTsx fetch files budget =
            (files.take k).map
              (fun f => FileResult.mk f.fileName (fileRecords fetch f.orders)) ∨
         ∃ f rest w, files.drop k = f :: rest ∧ w < f.orders.length ∧
           deliveredAppTsx fetch files budget =
             (files.take k).map
               (fun f => FileResult.mk f.fileName (fileRecords fetch f.orders)) ++
             [FileResult.mk f.fileName (fileRecords fetch (f.orders.take w))])) ∧
      (deliveredPart000 fetch files budget = deliveredAppTsx fetch files budget ∨
       deliveredPart000 fetch files budget = []) := by
  intro files
  induction files with
  | nil =>
      intro budget
      refine ⟨⟨0, Nat.le_refl 0, Or.inl rfl⟩, ?_⟩
      unfold deliveredPart000 deliveredAppTsx
      split
      · exact Or.inr rfl
      · exact Or.inl rfl
  | cons f fs ih =>
      intro budget
      refine ⟨?_, ?_⟩
      · cases budget with
        | zero => exact ⟨0, Nat.zero_le _, Or.inl rfl⟩
        | succ b =>
            by_cases hab : (runFileC fetch f.orders b).2.2 = true
            · obtain ⟨w, hw, hrec, _⟩ := (runFileC_shape fetch f.orders b).1 hab
              refine ⟨0, Nat.zero_le _, Or.inr ⟨f, fs, w, rfl, hw, ?_⟩⟩
              show (processFilesC fetch (f :: fs) (b + 1)).1 = _
              simp only [processFilesC, hab, if_true, hrec]
              rfl
            · rw [Bool.not_eq_true] at hab
              have hrec := (runFileC_shape fetch f.orders b).2 hab
              obtain ⟨⟨k, hk, hsh⟩, _⟩ := ih (runFileC fetch f.orders b).2.1
              have hdel : deliveredAppTsx fetch (f :: fs) (b + 1) =
                  FileResult.mk f.fileName (fileRecords fetch f.orders) ::
                    deliveredAppTsx fetch fs (runFileC fetch f.orders b).2.1 := by
                show (processFilesC fetch (f :: fs) (b + 1)).1 = _
                simp only [processFilesC, hab, if_false, hrec]
                rfl
              rcases hsh with hl | ⟨g, rest, w, hdrop, hw, hr⟩
              · refine ⟨k + 1, Nat.succ_le_succ hk, Or.inl ?_⟩
                rw [hdel, hl]
                rfl
              · refine ⟨k + 1, Nat.succ_le_succ hk, Or.inr ⟨g, rest, w, hdrop, hw, ?_⟩⟩
                rw [hdel, hr]
                rfl
      · unfold deliveredPart000 deliveredAppTsx
        split
        · exact Or.inr rfl
        · exact Or.inl rfl

/-- C8, counterexample.  Two one-entry files, with the abort flag observed
at the second file's top check: the first file completed fully and its
(nonempty) `FileResult` sits in the internal accumulator, but the
`part_000` variant's `setResults` is guarded by `if (!abortRef.current)`,
so the caller receives nothing at all — not the promised `FileResult` for
every fully-completed file. -/
theorem claim_C8_counterexample :
    ValidOrders (ScheduledFile.mk "f1" "1 alpha\nx" [[WordEntry.mk "1" "alpha" [] ""]]) ∧
    ValidOrders (ScheduledFile.mk "f2" "2 beta\ny" [[WordEntry.mk "2" "beta" [] ""]]) ∧
    (processFilesC (fun _ => vNull)
        [ScheduledFile.mk "f1" "1 alpha\nx" [[WordEntry.mk "1" "alpha" [] ""]],
         ScheduledFile.mk "f2" "2 beta\ny" [[WordEntry.mk "2" "beta" [] ""]]] 2).2.2
      = true ∧
    (processFilesC (fun _ => vNull)
        [ScheduledFile.mk "f1" "1 alpha\nx" [[WordEntry.mk "1" "alpha" [] ""]],
         ScheduledFile.mk "f2" "2 beta\ny" [[WordEntry.mk "2" "beta" [] ""]]] 2).1
      = [FileResult.mk "f1"
          (fileRecords (fun _ => vNull) [[WordEntry.mk "1" "alpha" [] ""]])] ∧
    fileRecords (fun _ => vNull) [[WordEntry.mk "1" "alpha" [] ""]] ≠ [] ∧
    deliveredPart000 (fun _ => vNull)
        [ScheduledFile.mk "f1" "1 alpha\nx" [[WordEntry.mk "1" "alpha" [] ""]],
         ScheduledFile.mk "f2" "2 beta\ny" [[WordEntry.mk "2" "beta" [] ""]]] 2
      = [] ∧
    ([] : List FileResult) ≠
      [FileResult.mk "f1"
        (fileRecords (fun _ => vNull) [[WordEntry.mk "1" "alpha" [] ""]])] := by
  refine ⟨?_, ?_, rfl, rfl, ?_, rfl, ?_⟩
  · show List.Forall₂ (fun c o => c.Perm o)
      (chunksOf CONCURRENCY (parseMarkdownFile "1 alpha\nx"))
      [[WordEntry.mk "1" "alpha" [] ""]]
    have hch : chunksOf CONCURRENCY (parseMarkdownFile "1 alpha\nx") =
        [[WordEntry.mk "1" "alpha" [] ""]] := by decide
    rw [hch]
    exact List.Forall₂.cons (by decide) List.Forall₂.nil
  · show List.Forall₂ (fun c o => c.Perm o)
      (chunksOf CONCURRENCY (parseMarkdownFile "2 beta\ny"))
      [[WordEntry.mk "2" "beta" [] ""]]
    have hch : chunksOf CONCURRENCY (parseMarkdownFile "2 beta\ny") =
        [[WordEntry.mk "2" "beta" [] ""]] := by decide
    rw [hch]
    exact List.Forall₂.cons (by decide) List.Forall₂.nil
  · intro h
    exact absurd (congrArg List.length h) (by decide)
  · intro h
    exact List.noConfusion h
